import Mathlib

/-!
# syft: contents cataloger, source-metadata JSON envelope, packages worker

A shallow embedding of

* `syft/file/contents_cataloger.go` (`ContentsCataloger.Catalog`, `catalogLocation`),
* `internal/presenter/packages/json_source.go` (`NewJsonSource`, `UnmarshalJSON`,
  `ToSourceMetadata`),
* `cmd/packages.go` (`packagesExecWorker`, `runPackageSbomUpload`),

followed by the properties established about them.

Conventions. A Go function returning `(T, error)` becomes a function into `Except GoError T`
when the value is meaningless on error, and a pair when the source returns a real value next to
the error. A run-time panic is an `Except Panic _`. Bytes are naturals taken modulo 256. Calls
into collaborators whose code is outside the repository files at hand (resolvers, the JSON
library, the upload client) are fields of a structure passed as an argument. Logging calls have
no influence on any result and are left out, except where a trace of effects is the subject.
-/

namespace Syft

/-! ## Errors -/

/-- Go `error` values, as far as the program builds or inspects them. `ErrPath` is
`internal.ErrPath{Path, Err}`; `ErrPermission` stands for any error on which `os.IsPermission`
holds; `Errorf` is `fmt.Errorf` with string arguments only and `ErrorfWrap` is `fmt.Errorf` whose
last argument is an error. -/
inductive GoError where
  | ErrPath (Path : String) (Err : GoError)
  | ErrPermission
  | Errorf (format : String) (args : List String)
  | ErrorfWrap (format : String) (args : List String) (err : GoError)
  deriving DecidableEq, Repr

/-- A run-time panic (failed type assertion, nil dereference). -/
structure Panic where
  msg : String
  deriving DecidableEq, Repr

/-- Modelled from the spec: `internal.IsErrPathPermission` is not among the source files. The
spec's per-file skip condition "permission-denied" on a path is taken as: the error is an
`internal.ErrPath` whose wrapped error is a permission error. The cataloger below takes the
classifier as an argument; this definition is the instance used in concrete runs. -/
def internal.IsErrPathPermission : GoError → Bool
  | .ErrPath _ .ErrPermission => true
  | _ => false

/-- The alphabet of `base64.StdEncoding`. -/
def encodeStd : List Char :=
  "ABCDEFGHIJKLMNOPQRSTUVWXYZabcdefghijklmnopqrstuvwxyz0123456789+/".toList

/-- The Go expression `enc.encode[v&0x3F]`. -/
def encodeChar (v : Nat) : Char := encodeStd.getD (v % 64) 'A'

/-- The method `(*Encoding).Encode` for `StdEncoding` (padding character `=`): every three
source bytes give four characters; a remainder of one or two bytes gives a padded block. This is
also the RFC 4648 base64 encoding of a complete byte sequence. -/
def Encode : List Nat → List Char
  | b0 :: b1 :: b2 :: rest =>
      let val := (b0 % 256) * 65536 + (b1 % 256) * 256 + (b2 % 256)
      encodeChar (val / 262144) :: encodeChar (val / 4096) :: encodeChar (val / 64) ::
        encodeChar val :: Encode rest
  | [b0, b1] =>
      let val := (b0 % 256) * 65536 + (b1 % 256) * 256
      [encodeChar (val / 262144), encodeChar (val / 4096), encodeChar (val / 64), '=']
  | [b0] =>
      let val := (b0 % 256) * 65536
      [encodeChar (val / 262144), encodeChar (val / 4096), '=', '=']
  | [] => []

/-- The streaming encoder returned by `base64.NewEncoder(base64.StdEncoding, buf)`: `buf` is the
internal buffer of at most two bytes waiting for a full block (`e.buf[:e.nbuf]`), `w` is what has
been written to the underlying `bytes.Buffer`. -/
structure encoder where
  buf : List Nat
  w : List Char
  deriving DecidableEq, Repr

/-- The constructor `base64.NewEncoder`. -/
def NewEncoder : encoder := { buf := [], w := [] }

/-- The loop "large interior chunks" of `(*encoder).Write`: while at least three bytes remain,
encode the largest multiple of three, at most 768 bytes (`len(e.out)/4*3`), and write it out.
Every round consumes at least three bytes, so `fuel = len(p)` rounds always suffice. -/
def encoder.interior : Nat → List Nat → List Char → List Nat × List Char
  | 0, p, w => (p, w)
  | fuel + 1, p, w =>
      if 3 ≤ p.length then
        let nn := if 768 > p.length then p.length - p.length % 3 else 768
        encoder.interior fuel (p.drop nn) (w ++ Encode (p.take nn))
      else (p, w)

/-- The method `(*encoder).Write`: complete a pending block first (leading fringe), then the
interior loop, then keep the last `len(p) % 3` bytes in the internal buffer (trailing fringe).
Writes to a `bytes.Buffer` do not fail. -/
def encoder.Write (e : encoder) (p : List Nat) : encoder :=
  if 0 < e.buf.length then
    let i := min p.length (3 - e.buf.length)
    let buf := e.buf ++ p.take i
    let p := p.drop i
    if buf.length < 3 then { buf := buf, w := e.w }
    else
      let r := encoder.interior p.length p (e.w ++ Encode buf)
      { buf := r.1, w := r.2 }
  else
    let r := encoder.interior p.length p e.w
    { buf := r.1, w := r.2 }

/-- The method `(*encoder).Close`: flush a partially filled block, padded. The cataloger never
calls it; it is here to state what a flushed encoder would have produced. -/
def encoder.Close (e : encoder) : encoder :=
  if 0 < e.buf.length then { buf := [], w := e.w ++ Encode e.buf } else e

/-- An `io.ReadCloser` as seen by a consumer: the successive chunks its `Read` calls deliver and
how the stream ends, `none` for `io.EOF` and `some err` for a read failure. -/
structure ReadCloser where
  chunks : List (List Nat)
  err : Option GoError
  deriving DecidableEq, Repr

/-- The complete byte sequence streamed by a reader. -/
def ReadCloser.bytes (r : ReadCloser) : List Nat := r.chunks.flatten

/-- The call `io.Copy(dst, src)` with the base64 encoder as destination: every chunk read is
written to the encoder; a read error other than `io.EOF` is returned. -/
def ioCopy (dst : encoder) (src : ReadCloser) : encoder × Option GoError :=
  (src.chunks.foldl encoder.Write dst, src.err)

/-! ## `syft/file/contents_cataloger.go` -/

/-- A `source.Location`; its declaration is outside the files at hand, the two fields are the
ones the cataloger reads: the real path and the virtual path of a file. -/
structure source.Location where
  RealPath : String
  VirtualPath : String
  deriving DecidableEq, Repr

/-- The part of `source.FileMetadata` the cataloger reads: `Size` (an `int64`). -/
structure source.FileMetadata where
  Size : Int
  deriving DecidableEq, Repr

/-- The interface `source.FileResolver`; the resolver is read-only, so each method is a function
of its arguments. -/
structure source.FileResolver where
  FilesByGlob : List String → Except GoError (List source.Location)
  FileMetadataByLocation : source.Location → Except GoError source.FileMetadata
  FileContentsByLocation : source.Location → Except GoError ReadCloser

/-- The struct `ContentsCataloger`. -/
structure ContentsCataloger where
  globs : List String
  skipFilesAboveSizeInBytes : Int
  deriving DecidableEq, Repr

/-- The constructor `NewContentsCataloger`. -/
def NewContentsCataloger (globs : List String) (skipFilesAboveSize : Int) : ContentsCataloger :=
  { globs := globs, skipFilesAboveSizeInBytes := skipFilesAboveSize }

/-- A Go `map[source.Location]string` as a list of entries with pairwise different keys. -/
abbrev Results := List (source.Location × String)

/-- The map read `m[k]`, with `none` for an absent key. -/
def Results.get : Results → source.Location → Option String
  | [], _ => none
  | (k', v') :: rest, k => if k' = k then some v' else Results.get rest k

/-- The map assignment `m[k] = v`. -/
def Results.set : Results → source.Location → String → Results
  | [], k, v => [(k, v)]
  | (k', v') :: rest, k, v =>
      if k' = k then (k, v) :: rest else (k', v') :: Results.set rest k v

/-- The keys of a map. -/
def Results.keys (m : Results) : List source.Location := m.map Prod.fst

/-- The method `catalogLocation`: open the content, copy it through a base64 encoder into a
buffer and return the buffer; the encoder is not closed. A failure to open is returned as it is,
a failure while copying is wrapped in `internal.ErrPath` with the real path. -/
def catalogLocation (resolver : source.FileResolver) (location : source.Location) :
    Except GoError String :=
  match resolver.FileContentsByLocation location with
  | .error err => .error err
  | .ok contentReader =>
      match ioCopy NewEncoder contentReader with
      | (_, some err) => .error (.ErrPath location.RealPath err)
      | (e, none) => .ok (String.mk e.w)

/-- The body of the `for` loop of `Catalog` over the remaining locations, `results` being the
map built so far. -/
def catalogLoop (IsErrPathPermission : GoError → Bool) (i : ContentsCataloger)
    (resolver : source.FileResolver) : List source.Location → Results → Except GoError Results
  | [], results => .ok results
  | location :: rest, results =>
      match resolver.FileMetadataByLocation location with
      | .error err => .error err
      | .ok metadata =>
          if 0 < i.skipFilesAboveSizeInBytes ∧ i.skipFilesAboveSizeInBytes < metadata.Size then
            catalogLoop IsErrPathPermission i resolver rest results
          else
            match catalogLocation resolver location with
            | .error err =>
                if IsErrPathPermission err then
                  catalogLoop IsErrPathPermission i resolver rest results
                else .error err
            | .ok result =>
                catalogLoop IsErrPathPermission i resolver rest (results.set location result)

/-- The method `ContentsCataloger.Catalog`. An error comes with a nil map. -/
def Catalog (IsErrPathPermission : GoError → Bool) (i : ContentsCataloger)
    (resolver : source.FileResolver) : Except GoError Results :=
  match resolver.FilesByGlob i.globs with
  | .error err => .error err
  | .ok locations => catalogLoop IsErrPathPermission i resolver locations []

/-- Modelled from the spec: the declaration of `source.Scheme` is not among the source files.
"A discriminated union keyed by `Scheme` ∈ {image, directory, (extensible)}": the two schemes the
code names, `source.ImageScheme` and `source.DirectoryScheme`, and any other value. -/
inductive source.Scheme where
  | ImageScheme
  | DirectoryScheme
  | other (name : String)
  deriving DecidableEq, Repr

/-- Modelled from the spec: the declaration of `source.Scope` is not among the source files.
"An enumerated value selecting which layers of a layered source are visible: squashed or
all-layers." -/
inductive source.Scope where
  | SquashedScope
  | AllLayersScope
  deriving DecidableEq, Repr

/-- The struct `source.Metadata`; its declaration is outside the files at hand, the three fields
are the ones the code reads and writes. The image descriptor `source.ImageMetadata` is declared
outside the files at hand too and is a type parameter `IM` throughout. -/
structure source.Metadata (IM : Type) where
  Scheme : source.Scheme
  ImageMetadata : IM
  Path : String
  deriving DecidableEq, Repr

/-- The struct `JsonImageMetadata`: a scope next to the embedded `source.ImageMetadata`. -/
structure JsonImageMetadata (IM : Type) where
  Scope : source.Scope
  ImageMetadata : IM
  deriving DecidableEq, Repr

/-- The dynamic values the field `Target interface{}` of a `JsonSource` takes in this package:
nil, a `string`, a `JsonImageMetadata`, a `source.ImageMetadata`. -/
inductive Target (IM : Type) where
  | nil
  | string (s : String)
  | JsonImageMetadata (v : Syft.JsonImageMetadata IM)
  | ImageMetadata (v : IM)
  deriving DecidableEq, Repr

/-- The struct `JsonSource`; `Typ` is the Go field `Type`. -/
structure JsonSource (IM : Type) where
  Typ : String
  Target : Syft.Target IM
  deriving DecidableEq, Repr

/-- A JSON document, standing for the bytes `encoding/json` writes and reads. -/
inductive Json where
  | null
  | bool (b : Bool)
  | number (n : Int)
  | string (s : String)
  | array (xs : List Json)
  | object (members : List (String × Json))

/-- The struct `jsonSourceUnpacker`; `Target` is a `json.RawMessage`, `none` while it is nil. -/
structure jsonSourceUnpacker where
  Typ : String
  Target : Option Json

/-- What `encoding/json` does with the types declared outside the files at hand: the zero value
of `source.ImageMetadata`, the members `json.Marshal` writes for one, the value it writes for a
`source.Scope`, and `json.Unmarshal(raw, &payload)` into a zero `source.ImageMetadata`. -/
structure EncodingJson (IM : Type) where
  zeroImageMetadata : IM
  marshalImageMetadata : IM → List (String × Json)
  marshalScope : source.Scope → Json
  unmarshalImageMetadata : Json → Except GoError IM

/-- The zero value of `source.Metadata` (`var metadata source.Metadata`). -/
def source.Metadata.zero {IM : Type} (J : EncodingJson IM) : source.Metadata IM :=
  { Scheme := .other "", ImageMetadata := J.zeroImageMetadata, Path := "" }

/-- The function `NewJsonSource`. The source returns the pair of a `JsonSource` and an error;
on the unsupported branch the `JsonSource` is the empty one, `JsonSource{}`. -/
def NewJsonSource {IM : Type} (src : source.Metadata IM) (scope : source.Scope) :
    JsonSource IM × Option GoError :=
  match src.Scheme with
  | .ImageScheme =>
      ({ Typ := "image",
         Target := .JsonImageMetadata { Scope := scope, ImageMetadata := src.ImageMetadata } },
        none)
  | .DirectoryScheme => ({ Typ := "directory", Target := .string src.Path }, none)
  | _ =>
      ({ Typ := "", Target := .nil },
        some (.Errorf "unsupported source: %T" ["source.Metadata"]))

/-- The JSON value `json.Marshal` writes for a `Target`: a string as a string, a struct as an
object whose members are its fields, the fields of an embedded struct promoted. -/
def Target.Marshal {IM : Type} (J : EncodingJson IM) : Target IM → Json
  | .nil => .null
  | .string s => .string s
  | .JsonImageMetadata v =>
      .object (("Scope", J.marshalScope v.Scope) :: J.marshalImageMetadata v.ImageMetadata)
  | .ImageMetadata v => .object (J.marshalImageMetadata v)

/-- The JSON document `json.Marshal` writes for a `JsonSource`, following the field tags
`json:"type"` and `json:"target"`. -/
def JsonSource.Marshal {IM : Type} (J : EncodingJson IM) (s : JsonSource IM) : Json :=
  .object [("type", .string s.Typ), ("target", s.Target.Marshal J)]

/-- Whether a member key selects the struct field tagged `name`: `encoding/json` accepts a key
that differs from the tag in letter case only. -/
def keyMatches (name key : String) : Bool :=
  key.toList.map Char.toLower = name.toList.map Char.toLower

/-- One object member decoded into a `jsonSourceUnpacker`: a string (or null, which changes
nothing) for `type`, any value kept raw for `target`; a value of another kind for `type` is a
type error, remembered if it is the first, and unknown keys are ignored. -/
def unpackMember (st : jsonSourceUnpacker × Option GoError) (kv : String × Json) :
    jsonSourceUnpacker × Option GoError :=
  if keyMatches "type" kv.1 then
    match kv.2 with
    | .string s => ({ st.1 with Typ := s }, st.2)
    | .null => st
    | _ =>
        (st.1, st.2 <|> some (.Errorf
          "json: cannot unmarshal value into Go struct field jsonSourceUnpacker.type of type string"
          []))
  else if keyMatches "target" kv.1 then ({ st.1 with Target := some kv.2 }, st.2)
  else st

/-- The call `json.Unmarshal(b, &unpacker)` on a zero `jsonSourceUnpacker`. -/
def unmarshalUnpacker : Json → Except GoError jsonSourceUnpacker
  | .object members =>
      match members.foldl unpackMember ({ Typ := "", Target := none }, none) with
      | (_, some err) => .error err
      | (unpacker, none) => .ok unpacker
  | .null => .ok { Typ := "", Target := none }
  | _ =>
      .error (.Errorf
        "json: cannot unmarshal value into Go value of type packages.jsonSourceUnpacker" [])

/-- The call `json.Unmarshal(unpacker.Target, &payload)`: empty input is a syntax error. -/
def unmarshalPayload {IM : Type} (J : EncodingJson IM) : Option Json → Except GoError IM
  | none => .error (.Errorf "unexpected end of JSON input" [])
  | some raw => J.unmarshalImageMetadata raw

/-- The method `(*JsonSource).UnmarshalJSON`: the receiver after the call and the returned
error. `s.Type` is assigned before the switch, so it is set also when the switch fails. -/
def JsonSource.UnmarshalJSON {IM : Type} (J : EncodingJson IM) (s : JsonSource IM) (b : Json) :
    JsonSource IM × Option GoError :=
  match unmarshalUnpacker b with
  | .error err => (s, some err)
  | .ok unpacker =>
      let s := { s with Typ := unpacker.Typ }
      if s.Typ = "image" then
        match unmarshalPayload J unpacker.Target with
        | .error err => (s, some err)
        | .ok payload => ({ s with Target := .ImageMetadata payload }, none)
      else (s, some (.Errorf "unsupported package metadata type: %+v" [s.Typ]))

/-- The method `(*JsonSource).ToSourceMetadata`. A type assertion `s.Target.(T)` on a value of
another dynamic type panics. -/
def JsonSource.ToSourceMetadata {IM : Type} (J : EncodingJson IM) (s : JsonSource IM) :
    Except Panic (source.Metadata IM) :=
  let metadata := source.Metadata.zero J
  if s.Typ = "directory" then
    match s.Target with
    | .string path => .ok { metadata with Scheme := .DirectoryScheme, Path := path }
    | _ => .error ⟨"interface conversion: interface {} is not string"⟩
  else if s.Typ = "image" then
    match s.Target with
    | .ImageMetadata payload =>
        .ok { metadata with Scheme := .ImageScheme, ImageMetadata := payload }
    | _ => .error ⟨"interface conversion: interface {} is not source.ImageMetadata"⟩
  else .ok metadata

/-- The codec path of the round-trip law: encode with `NewJsonSource`, serialise the envelope,
decode it into an empty `JsonSource` with `UnmarshalJSON`, convert with `ToSourceMetadata`. -/
def roundTrip {IM : Type} (J : EncodingJson IM) (m : source.Metadata IM) (scope : source.Scope) :
    Except GoError (Except Panic (source.Metadata IM)) :=
  match NewJsonSource m scope with
  | (_, some err) => .error err
  | (envelope, none) =>
      match JsonSource.UnmarshalJSON J { Typ := "", Target := .nil } (envelope.Marshal J) with
      | (_, some err) => .error err
      | (decoded, none) => .ok (decoded.ToSourceMetadata J)

/-! ## `cmd/packages.go` -/

/-- The Go call `strings.Split(s, sep)` for a non-empty separator, on character lists: `skip`
counts the characters of a separator just found that are still to be passed over, `acc` holds
the current field in reverse. -/
def stringsSplit (sep : List Char) : List Char → Nat → List Char → List (List Char)
  | [], _, acc => [acc.reverse]
  | _ :: cs, skip + 1, acc => stringsSplit sep cs skip acc
  | c :: cs, 0, acc =>
      if sep.isPrefixOf (c :: cs) then acc.reverse :: stringsSplit sep cs (sep.length - 1) []
      else stringsSplit sep cs 0 (c :: acc)

/-- The struct `anchore.Configuration` as filled in by `runPackageSbomUpload`. -/
structure anchore.Configuration where
  Hostname : String
  Username : String
  Password : String
  Scheme : String
  deriving DecidableEq, Repr

/-- The settings `appConfig.Anchore` read by this file. -/
structure anchoreOptions where
  UploadEnabled : Bool
  Host : String
  Username : String
  Password : String
  Dockerfile : String
  OverwriteExistingImage : Bool
  deriving DecidableEq, Repr

/-- The settings of the global `appConfig` read by the worker. -/
structure Application where
  ScopeOpt : source.Scope
  Anchore : anchoreOptions
  deriving DecidableEq, Repr

/-- The struct `image.Image` behind `src.Image`, of which only `Metadata` is read; its type `SM`
is declared outside the files at hand. -/
structure image.Image (SM : Type) where
  Metadata : SM

/-- The struct `source.Source`: its metadata and the image pointer, nil for a source that is not
an image. -/
structure source.Source (IM SM : Type) where
  Metadata : source.Metadata IM
  Image : Option (image.Image SM)

/-- The struct `anchore.ImportConfig` assembled for the upload; `Cat` and `Dist` are the catalog
and distro types. -/
structure anchore.ImportConfig (IM SM Cat Dist : Type) where
  ImageMetadata : SM
  SourceMetadata : source.Metadata IM
  Catalog : Cat
  Distro : Dist
  Dockerfile : List Nat
  OverwriteExistingUpload : Bool

/-- The outcomes of the calls the file makes into the operating system, the upload client, the
source package and the cataloging library. An `Option GoError` is the returned error, `none`
for nil. `ReadAll` is `os.Open` followed by `ioutil.ReadAll` on the opened file. -/
structure World (IM SM Cat Dist : Type) where
  Stat : String → Option GoError
  IsNotExist : GoError → Bool
  Open : String → Option GoError
  ReadAll : String → Except GoError (List Nat)
  NewClient : anchore.Configuration → Option GoError
  Import : anchore.Configuration → anchore.ImportConfig IM SM Cat Dist → Option GoError
  New : String → Except GoError (source.Source IM SM)
  CatalogPackages : source.Source IM SM → source.Scope → Except GoError (Cat × Dist)

/-- The effects `runPackageSbomUpload` performs, in order: the log line, the file system calls on
the Dockerfile, the creation of the upload client and the network call `Import`. -/
inductive Effect where
  | Infof (format : String) (args : List String)
  | Stat (path : String)
  | Open (path : String)
  | ReadAll (path : String)
  | NewClient (cfg : anchore.Configuration)
  | Import (cfg : anchore.Configuration)
  deriving DecidableEq, Repr

/-- Whether an effect touches the file system or the network: everything but the log line. -/
def Effect.isFileOrNetwork : Effect → Bool
  | .Infof _ _ => false
  | _ => true

/-- The calls `os.Open` and `ioutil.ReadAll` on the Dockerfile: the effects performed and the
contents, or the error `runPackageSbomUpload` returns. -/
def openDockerfile {IM SM Cat Dist : Type} (w : World IM SM Cat Dist) (path : String) :
    List Effect × Except GoError (List Nat) :=
  match w.Open path with
  | some err => ([.Open path], .error (.ErrorfWrap "unable to open dockerfile=%q: %w" [path] err))
  | none =>
      match w.ReadAll path with
      | .error err =>
          ([.Open path, .ReadAll path],
            .error (.ErrorfWrap "unable to read dockerfile=%q: %w" [path] err))
      | .ok contents => ([.Open path, .ReadAll path], .ok contents)

/-- The block of `runPackageSbomUpload` that reads the Dockerfile when one is configured: the
effects performed and the contents (empty without a Dockerfile), or the error the function
returns. `os.IsNotExist` of a nil error is false. -/
def readDockerfile {IM SM Cat Dist : Type} (w : World IM SM Cat Dist) (appConfig : Application) :
    List Effect × Except GoError (List Nat) :=
  let path := appConfig.Anchore.Dockerfile
  if path ≠ "" then
    match w.Stat path with
    | some err =>
        if w.IsNotExist err then
          ([.Stat path], .error (.ErrorfWrap "unable to read dockerfile=%q: %w" [path] err))
        else (.Stat path :: (openDockerfile w path).1, (openDockerfile w path).2)
    | none => (.Stat path :: (openDockerfile w path).1, (openDockerfile w path).2)
  else ([], .ok [])

/-- The client configuration `runPackageSbomUpload` derives from `appConfig.Anchore`: the host is
split at `://` into scheme and host name when it has both parts. -/
def clientConfiguration (appConfig : Application) : anchore.Configuration :=
  let urlFields := stringsSplit "://".toList appConfig.Anchore.Host.toList 0 []
  if 1 < urlFields.length then
    { Hostname := String.mk (urlFields.getD 1 []), Username := appConfig.Anchore.Username,
      Password := appConfig.Anchore.Password, Scheme := String.mk (urlFields.getD 0 []) }
  else
    { Hostname := appConfig.Anchore.Host, Username := appConfig.Anchore.Username,
      Password := appConfig.Anchore.Password, Scheme := "" }

/-- The function `runPackageSbomUpload`: the effects performed, in order, and the returned error
(`none` for nil), or a panic when `src.Image` is dereferenced while nil. -/
def runPackageSbomUpload {IM SM Cat Dist : Type} (w : World IM SM Cat Dist)
    (appConfig : Application) (src : source.Source IM SM) (s : source.Metadata IM)
    (catalog : Cat) (d : Dist) : List Effect × Except Panic (Option GoError) :=
  let log := Effect.Infof "uploading results to %s" [appConfig.Anchore.Host]
  if src.Metadata.Scheme ≠ .ImageScheme then
    ([log], .ok (some (.Errorf "unable to upload results: only images are supported" [])))
  else
    match readDockerfile w appConfig with
    | (fileEffects, .error err) => (log :: fileEffects, .ok (some err))
    | (fileEffects, .ok dockerfileContents) =>
        let cfg := clientConfiguration appConfig
        match w.NewClient cfg with
        | some err =>
            (log :: fileEffects ++ [.NewClient cfg],
              .ok (some (.ErrorfWrap "failed to create anchore client: %+v" [] err)))
        | none =>
            match src.Image with
            | none =>
                (log :: fileEffects ++ [.NewClient cfg],
                  .error ⟨"invalid memory address or nil pointer dereference"⟩)
            | some img =>
                let importCfg : anchore.ImportConfig IM SM Cat Dist :=
                  { ImageMetadata := img.Metadata, SourceMetadata := s, Catalog := catalog,
                    Distro := d, Dockerfile := dockerfileContents,
                    OverwriteExistingUpload := appConfig.Anchore.OverwriteExistingImage }
                match w.Import cfg importCfg with
                | some err =>
                    (log :: fileEffects ++ [.NewClient cfg, .Import cfg],
                      .ok (some (.ErrorfWrap "failed to upload results to host=%s: %+v"
                        [appConfig.Anchore.Host] err)))
                | none => (log :: fileEffects ++ [.NewClient cfg, .Import cfg], .ok none)

/-- The event types of the bus; the worker publishes `event.PresenterReady`. -/
inductive event.EventType where
  | PresenterReady
  | other (name : String)
  deriving DecidableEq, Repr

/-- What the goroutine of `packagesExecWorker` does, in order: the calls it makes, the values
it sends on `errs`, the events it publishes on the bus, the deferred `cleanup()` and the
deferred `close(errs)`. -/
inductive WorkerEvent where
  | checkForApplicationUpdate
  | sourceNew (userInput : String)
  | catalogPackages
  | upload (effects : List Effect)
  | send (err : GoError)
  | publish (type : event.EventType)
  | cleanup
  | close
  deriving DecidableEq, Repr

/-- The steps of the goroutine after `source.New` has returned a source, up to the point where
the deferred calls run. -/
def workerAfterNew {IM SM Cat Dist : Type} (w : World IM SM Cat Dist) (appConfig : Application)
    (src : source.Source IM SM) : List WorkerEvent :=
  .catalogPackages ::
    match w.CatalogPackages src appConfig.ScopeOpt with
    | .error err => [.send (.ErrorfWrap "failed to catalog input: %+v" [] err)]
    | .ok (catalog, d) =>
        if appConfig.Anchore.UploadEnabled then
          match runPackageSbomUpload w appConfig src src.Metadata catalog d with
          | (effects, .error _) => [.upload effects]
          | (effects, .ok (some err)) => [.upload effects, .send err]
          | (effects, .ok none) => [.upload effects, .publish .PresenterReady]
        else [.publish .PresenterReady]

/-- The goroutine started by `packagesExecWorker`, as the trace of what it does. The deferred
calls run last, in reverse order of their `defer` statements: `cleanup()` if the source was
opened, then `close(errs)`; they also run when the body panics. -/
def packagesExecWorker {IM SM Cat Dist : Type} (w : World IM SM Cat Dist)
    (appConfig : Application) (userInput : String) : List WorkerEvent :=
  (.checkForApplicationUpdate :: .sourceNew userInput ::
    match w.New userInput with
    | .error err => [.send (.ErrorfWrap "failed to determine image source: %+v" [] err)]
    | .ok src => workerAfterNew w appConfig src ++ [.cleanup]) ++ [.close]

/-- The number of values sent on the error channel in a trace. -/
def sends (t : List WorkerEvent) : Nat :=
  (t.filter fun e => match e with | .send _ => true | _ => false).length

/-- The number of `PresenterReady` events published in a trace. -/
def presenterReadyCount (t : List WorkerEvent) : Nat :=
  t.count (.publish .PresenterReady)

/-! ## Concrete inputs -/

deriving instance DecidableEq for Except

/-- A file of an in-memory source: where it is, the size its metadata reports, and what opening
it gives. -/
structure exFile where
  location : source.Location
  size : Int
  contents : Except GoError ReadCloser

/-- The resolver over a table of files: every glob matches all of them, in the order of the
table; a location outside the table is not found. -/
def exResolver (files : List exFile) : source.FileResolver :=
  { FilesByGlob := fun _ => .ok (files.map fun f => f.location)
    FileMetadataByLocation := fun L =>
      match files.find? fun f => decide (f.location = L) with
      | some f => .ok { Size := f.size }
      | none => .error (.Errorf "file does not exist: %s" [L.RealPath])
    FileContentsByLocation := fun L =>
      match files.find? fun f => decide (f.location = L) with
      | some f => f.contents
      | none => .error (.Errorf "file does not exist: %s" [L.RealPath]) }

/-- The location `/tmp/proj/a.txt`. -/
def exA : source.Location := { RealPath := "/tmp/proj/a.txt", VirtualPath := "/tmp/proj/a.txt" }

/-- The location `/tmp/proj/b.txt`. -/
def exB : source.Location := { RealPath := "/tmp/proj/b.txt", VirtualPath := "/tmp/proj/b.txt" }

/-- The location `/tmp/proj/secret.txt`. -/
def exSecret : source.Location :=
  { RealPath := "/tmp/proj/secret.txt", VirtualPath := "/tmp/proj/secret.txt" }

/-- The file `a.txt` holding the three bytes `abc`. -/
def exFileA : exFile :=
  { location := exA, size := 3, contents := .ok { chunks := [[97, 98, 99]], err := none } }

/-- The file `b.txt` holding the six bytes `abcdef`. -/
def exFileB : exFile :=
  { location := exB, size := 6,
    contents := .ok { chunks := [[97, 98, 99, 100, 101, 102]], err := none } }

/-- The file `secret.txt` that cannot be opened: permission denied, reported as a path error. -/
def exFileDenied : exFile :=
  { location := exSecret, size := 3,
    contents := .error (.ErrPath "/tmp/proj/secret.txt" .ErrPermission) }

/-- The file `a.txt` holding the single byte `a`. -/
def exFileOneByte : exFile :=
  { location := exA, size := 1, contents := .ok { chunks := [[97]], err := none } }

/-- The file `b.txt` holding the four bytes `abcd`, delivered in two reads. -/
def exFileFourBytes : exFile :=
  { location := exB, size := 4, contents := .ok { chunks := [[97, 98], [99, 100]], err := none } }

/-- A cataloger for `**/*.txt` with the given size threshold. -/
def exCataloger (threshold : Int) : ContentsCataloger :=
  NewContentsCataloger ["**/*.txt"] threshold

/-- An image descriptor with a single field, the user input, for concrete runs of the codec. -/
structure exImageMetadata where
  UserInput : String
  deriving DecidableEq, Repr

/-- The JSON library on `exImageMetadata`: one member `userInput`; decoding reads that member
from an object, a string or null (which changes nothing), fails with a type error on a value
of another kind, and ignores every other key. -/
def exJson : EncodingJson exImageMetadata :=
  { zeroImageMetadata := { UserInput := "" }
    marshalImageMetadata := fun im => [("userInput", .string im.UserInput)]
    marshalScope := fun scope =>
      match scope with
      | .SquashedScope => .string "Squashed"
      | .AllLayersScope => .string "AllLayers"
    unmarshalImageMetadata := fun raw =>
      match raw with
      | .object members =>
          members.foldl (fun acc kv =>
            match acc with
            | .error err => .error err
            | .ok im =>
                if keyMatches "userInput" kv.1 then
                  match kv.2 with
                  | .string v => .ok { UserInput := v }
                  | .null => .ok im
                  | _ =>
                      .error (.Errorf
                        "json: cannot unmarshal value into Go struct field %s of type string"
                        ["ImageMetadata.userInput"])
                else .ok im) (.ok { UserInput := "" })
      | .null => .ok { UserInput := "" }
      | _ =>
          .error (.Errorf
            "json: cannot unmarshal value into Go value of type source.ImageMetadata" []) }

/-- The metadata of the directory source `/tmp/proj`. -/
def exDirMetadata : source.Metadata exImageMetadata :=
  { Scheme := .DirectoryScheme, ImageMetadata := { UserInput := "" }, Path := "/tmp/proj" }

/-- The metadata of the image source `alpine:latest`. -/
def exAlpineMetadata : source.Metadata exImageMetadata :=
  { Scheme := .ImageScheme, ImageMetadata := { UserInput := "alpine:latest" }, Path := "" }

/-- A metadata with a scheme that is neither image nor directory. -/
def exArchiveMetadata : source.Metadata exImageMetadata :=
  { Scheme := .other "archive", ImageMetadata := { UserInput := "" }, Path := "/tmp/x.tar" }

/-- The directory source `/tmp/proj`; it has no image. -/
def exDirSource : source.Source exImageMetadata Unit :=
  { Metadata := exDirMetadata, Image := none }

/-- The image source `alpine:latest`. -/
def exImageSource : source.Source exImageMetadata Unit :=
  { Metadata := exAlpineMetadata, Image := some { Metadata := () } }

/-- A world in which `dir:/tmp/proj` and `alpine:latest` resolve, any other input does not,
cataloging succeeds and the upload service accepts everything. -/
def exWorld : World exImageMetadata Unit Unit Unit :=
  { Stat := fun _ => none
    IsNotExist := fun _ => false
    Open := fun _ => none
    ReadAll := fun _ => .ok []
    NewClient := fun _ => none
    Import := fun _ _ => none
    New := fun userInput =>
      if userInput = "dir:/tmp/proj" then .ok exDirSource
      else if userInput = "alpine:latest" then .ok exImageSource
      else .error (.Errorf "could not resolve source: %s" [userInput])
    CatalogPackages := fun _ _ => .ok ((), ()) }

/-- An application configuration, with the upload switched on or off. -/
def exConfig (upload : Bool) : Application :=
  { ScopeOpt := .SquashedScope
    Anchore :=
      { UploadEnabled := upload, Host := "https://anchore.example.com", Username := "admin",
        Password := "secret", Dockerfile := "", OverwriteExistingImage := false } }

/-! ## Properties of the result map -/

theorem Results.get_set_self (m : Results) (k : source.Location) (v : String) :
    (m.set k v).get k = some v := by
  induction m with
  | nil => simp [Results.set, Results.get]
  | cons p rest ih =>
      obtain ⟨k', v'⟩ := p
      by_cases h : k' = k
      · simp [Results.set, Results.get, h]
      · simp [Results.set, Results.get, h, ih]

theorem Results.get_set_ne (m : Results) (k k' : source.Location) (v : String) (h : k ≠ k') :
    (m.set k v).get k' = m.get k' := by
  induction m with
  | nil => simp [Results.set, Results.get, h]
  | cons p rest ih =>
      obtain ⟨k₁, v₁⟩ := p
      by_cases h₁ : k₁ = k
      · subst h₁
        simp [Results.set, Results.get, h]
      · by_cases h₂ : k₁ = k'
        · subst h₂
          simp [Results.set, Results.get, h₁]
        · simp [Results.set, Results.get, h₁, h₂, ih]

theorem Results.mem_keys_set (m : Results) (k k' : source.Location) (v : String) :
    k' ∈ (m.set k v).keys ↔ k' = k ∨ k' ∈ m.keys := by
  induction m with
  | nil => simp [Results.set, Results.keys]
  | cons p rest ih =>
      obtain ⟨k₁, v₁⟩ := p
      by_cases h₁ : k₁ = k
      · subst h₁
        simp [Results.set, Results.keys]
      · simp only [Results.keys] at ih
        simp only [Results.set, h₁, if_false, Results.keys, List.map_cons, List.mem_cons, ih]
        tauto

theorem Results.get_eq_none_iff (m : Results) (k : source.Location) :
    m.get k = none ↔ k ∉ m.keys := by
  induction m with
  | nil => simp [Results.get, Results.keys]
  | cons p rest ih =>
      obtain ⟨k₁, v₁⟩ := p
      simp only [Results.keys] at ih
      by_cases h₁ : k₁ = k
      · simp [Results.get, Results.keys, h₁]
      · have h₂ : ¬ k = k₁ := fun h => h₁ h.symm
        simp [Results.get, Results.keys, h₁, h₂, ih]

theorem Results.length_set_of_not_mem (m : Results) (k : source.Location) (v : String)
    (h : k ∉ m.keys) : (m.set k v).length = m.length + 1 := by
  induction m with
  | nil => simp [Results.set]
  | cons p rest ih =>
      obtain ⟨k₁, v₁⟩ := p
      simp only [Results.keys, List.map_cons, List.mem_cons, not_or] at h
      have h₁ : ¬ k₁ = k := fun e => h.1 e.symm
      simp only [Results.keys] at ih
      simp [Results.set, h₁, ih h.2]

theorem Results.nodup_keys_set (m : Results) (k : source.Location) (v : String)
    (h : m.keys.Nodup) : (m.set k v).keys.Nodup := by
  induction m with
  | nil => simp [Results.set, Results.keys]
  | cons p rest ih =>
      obtain ⟨k₁, v₁⟩ := p
      simp only [Results.keys, List.map_cons, List.nodup_cons] at h
      by_cases h₁ : k₁ = k
      · subst h₁
        simpa [Results.set, Results.keys] using h
      · have hmem := Results.mem_keys_set rest k k₁ v
        simp only [Results.keys] at ih hmem
        simp only [Results.set, h₁, if_false, Results.keys, List.map_cons, List.nodup_cons]
        refine ⟨?_, ih h.2⟩
        rw [hmem]
        rintro (e | e)
        · exact h₁ e
        · exact h.1 e

/-! ## The loop of `Catalog`, one location at a time -/

section Loop

variable (P : GoError → Bool) (i : ContentsCataloger) (r : source.FileResolver)

theorem catalogLoop_metadata_error {L : source.Location} {err : GoError}
    (rest : List source.Location) (acc : Results)
    (hmd : r.FileMetadataByLocation L = .error err) :
    catalogLoop P i r (L :: rest) acc = .error err := by
  simp [catalogLoop, hmd]

theorem catalogLoop_size_skip {L : source.Location} {md : source.FileMetadata}
    (rest : List source.Location) (acc : Results)
    (hmd : r.FileMetadataByLocation L = .ok md)
    (hsz : 0 < i.skipFilesAboveSizeInBytes ∧ i.skipFilesAboveSizeInBytes < md.Size) :
    catalogLoop P i r (L :: rest) acc = catalogLoop P i r rest acc := by
  simp [catalogLoop, hmd, hsz]

theorem catalogLoop_permission_skip {L : source.Location} {md : source.FileMetadata}
    {err : GoError} (rest : List source.Location) (acc : Results)
    (hmd : r.FileMetadataByLocation L = .ok md)
    (hsz : ¬ (0 < i.skipFilesAboveSizeInBytes ∧ i.skipFilesAboveSizeInBytes < md.Size))
    (hc : catalogLocation r L = .error err) (hp : P err = true) :
    catalogLoop P i r (L :: rest) acc = catalogLoop P i r rest acc := by
  simp only [catalogLoop, hmd, hc, hp, if_neg hsz]
  simp

theorem catalogLoop_fatal {L : source.Location} {md : source.FileMetadata}
    {err : GoError} (rest : List source.Location) (acc : Results)
    (hmd : r.FileMetadataByLocation L = .ok md)
    (hsz : ¬ (0 < i.skipFilesAboveSizeInBytes ∧ i.skipFilesAboveSizeInBytes < md.Size))
    (hc : catalogLocation r L = .error err) (hp : P err = false) :
    catalogLoop P i r (L :: rest) acc = .error err := by
  simp only [catalogLoop, hmd, hc, hp, if_neg hsz]
  simp

theorem catalogLoop_store {L : source.Location} {md : source.FileMetadata}
    {result : String} (rest : List source.Location) (acc : Results)
    (hmd : r.FileMetadataByLocation L = .ok md)
    (hsz : ¬ (0 < i.skipFilesAboveSizeInBytes ∧ i.skipFilesAboveSizeInBytes < md.Size))
    (hc : catalogLocation r L = .ok result) :
    catalogLoop P i r (L :: rest) acc = catalogLoop P i r rest (acc.set L result) := by
  simp only [catalogLoop, hmd, hc, if_neg hsz]

/-- What one round of the loop does, whatever the remaining locations and the map so far: it
fails, or it goes on with the same map, or it goes on with the map extended at the location by
the string `catalogLocation` returned, which happens only for a location that is not
size-skipped. -/
theorem catalogLoop_cons_cases (L : source.Location) :
    (∃ err, ∀ rest acc, catalogLoop P i r (L :: rest) acc = .error err) ∨
    (∀ rest acc, catalogLoop P i r (L :: rest) acc = catalogLoop P i r rest acc) ∨
    (∃ md result, r.FileMetadataByLocation L = .ok md ∧
      ¬ (0 < i.skipFilesAboveSizeInBytes ∧ i.skipFilesAboveSizeInBytes < md.Size) ∧
      catalogLocation r L = .ok result ∧
      ∀ rest acc, catalogLoop P i r (L :: rest) acc =
        catalogLoop P i r rest (acc.set L result)) := by
  cases hmd : r.FileMetadataByLocation L with
  | error err =>
      exact Or.inl ⟨err, fun rest acc => catalogLoop_metadata_error P i r rest acc hmd⟩
  | ok md =>
      by_cases hsz : 0 < i.skipFilesAboveSizeInBytes ∧ i.skipFilesAboveSizeInBytes < md.Size
      · exact Or.inr (Or.inl fun rest acc => catalogLoop_size_skip P i r rest acc hmd hsz)
      · cases hc : catalogLocation r L with
        | error err =>
            cases hp : P err with
            | true =>
                exact Or.inr (Or.inl fun rest acc =>
                  catalogLoop_permission_skip P i r rest acc hmd hsz hc hp)
            | false =>
                exact Or.inl ⟨err, fun rest acc =>
                  catalogLoop_fatal P i r rest acc hmd hsz hc hp⟩
        | ok result =>
            exact Or.inr (Or.inr ⟨md, result, rfl, hsz, rfl, fun rest acc =>
              catalogLoop_store P i r rest acc hmd hsz hc⟩)

/-- Every key of the map the loop returns was in the map it started from or is one of the
locations it went through. -/
theorem catalogLoop_keys (locs : List source.Location) (acc m : Results)
    (h : catalogLoop P i r locs acc = .ok m) (k : source.Location) (hk : k ∈ m.keys) :
    k ∈ acc.keys ∨ k ∈ locs := by
  induction locs generalizing acc with
  | nil =>
      simp only [catalogLoop, Except.ok.injEq] at h
      subst h
      exact Or.inl hk
  | cons L rest ih =>
      rcases catalogLoop_cons_cases P i r L with ⟨err, he⟩ | hs | ⟨md, res, -, -, -, hs⟩
      · rw [he] at h
        cases h
      · rw [hs] at h
        rcases ih acc h with h₁ | h₁
        · exact Or.inl h₁
        · exact Or.inr (List.mem_cons_of_mem _ h₁)
      · rw [hs] at h
        rcases ih _ h with h₁ | h₁
        · rcases (Results.mem_keys_set acc L k res).1 h₁ with e | e
          · exact Or.inr (e ▸ List.mem_cons_self _ _)
          · exact Or.inl e
        · exact Or.inr (List.mem_cons_of_mem _ h₁)

/-- A location whose size exceeds a positive threshold has no effect on the loop: the outcome is
the one of the loop over the list with that location taken out. -/
theorem catalogLoop_filter_oversize {L : source.Location} {md : source.FileMetadata}
    (hmd : r.FileMetadataByLocation L = .ok md)
    (hsz : 0 < i.skipFilesAboveSizeInBytes ∧ i.skipFilesAboveSizeInBytes < md.Size)
    (locs : List source.Location) (acc : Results) :
    catalogLoop P i r locs acc = catalogLoop P i r (locs.filter fun k => decide (k ≠ L)) acc := by
  induction locs generalizing acc with
  | nil => rfl
  | cons k rest ih =>
      by_cases hk : k = L
      · subst hk
        rw [catalogLoop_size_skip P i r rest acc hmd hsz, ih]
        simp
      · have hf : (k :: rest).filter (fun k => decide (k ≠ L)) =
            k :: rest.filter (fun k => decide (k ≠ L)) := by simp [hk]
        rw [hf]
        simp only [catalogLoop]
        cases r.FileMetadataByLocation k with
        | error err => rfl
        | ok mk =>
            simp only []
            split
            · exact ih acc
            · cases catalogLocation r k with
              | error err =>
                  simp only []
                  split
                  · exact ih acc
                  · rfl
              | ok res => exact ih _

/-- A stored string stays: once the map holds, for a location, the string `catalogLocation`
returns for it, the map returned by the loop holds it too. -/
theorem catalogLoop_get_preserved {L : source.Location} {s : String}
    (hc : catalogLocation r L = .ok s) (locs : List source.Location) (acc m : Results)
    (hacc : acc.get L = some s) (h : catalogLoop P i r locs acc = .ok m) :
    m.get L = some s := by
  induction locs generalizing acc with
  | nil =>
      simp only [catalogLoop, Except.ok.injEq] at h
      subst h
      exact hacc
  | cons k rest ih =>
      rcases catalogLoop_cons_cases P i r k with ⟨err, he⟩ | hs | ⟨md, res, -, -, hck, hs⟩
      · rw [he] at h
        cases h
      · rw [hs] at h
        exact ih acc hacc h
      · rw [hs] at h
        refine ih _ ?_ h
        by_cases hk : k = L
        · subst hk
          rw [hc] at hck
          cases hck
          exact Results.get_set_self acc k s
        · rw [Results.get_set_ne acc k L res hk]
          exact hacc

/-- A location that is gone through, is not size-skipped and whose content is read ends up in
the returned map with the string `catalogLocation` returns for it. -/
theorem catalogLoop_get_of_mem {L : source.Location} {s : String}
    (hc : catalogLocation r L = .ok s)
    (hsz : ∀ md, r.FileMetadataByLocation L = .ok md →
      ¬ (0 < i.skipFilesAboveSizeInBytes ∧ i.skipFilesAboveSizeInBytes < md.Size))
    (locs : List source.Location) (acc m : Results) (hmem : L ∈ locs)
    (h : catalogLoop P i r locs acc = .ok m) :
    m.get L = some s := by
  induction locs generalizing acc with
  | nil => cases hmem
  | cons k rest ih =>
      by_cases hk : k = L
      · subst hk
        cases hmd : r.FileMetadataByLocation k with
        | error err =>
            rw [catalogLoop_metadata_error P i r rest acc hmd] at h
            cases h
        | ok md =>
            rw [catalogLoop_store P i r rest acc hmd (hsz md hmd) hc] at h
            exact catalogLoop_get_preserved P i r hc rest _ m (Results.get_set_self acc k s) h
      · have hmem' : L ∈ rest := by
          rcases List.mem_cons.1 hmem with e | e
          · exact absurd e.symm hk
          · exact e
        rcases catalogLoop_cons_cases P i r k with ⟨err, he⟩ | hs | ⟨md, res, -, -, -, hs⟩
        · rw [he] at h
          cases h
        · rw [hs] at h
          exact ih acc hmem' h
        · rw [hs] at h
          exact ih _ hmem' h

end Loop

/-! ## The contents cataloger: size threshold, permission skips, fatal errors -/

theorem length_filter_ne_of_nodup_mem (a : source.Location) (l : List source.Location)
    (hnd : l.Nodup) (hmem : a ∈ l) :
    (l.filter fun k => decide (k ≠ a)).length = l.length - 1 := by
  induction l with
  | nil => cases hmem
  | cons k rest ih =>
      rw [List.nodup_cons] at hnd
      by_cases hk : k = a
      · subst hk
        have hall : ∀ x ∈ rest, decide (x ≠ k) = true := by
          intro x hx
          have : x ≠ k := fun e => hnd.1 (e ▸ hx)
          simpa using this
        have hf : (k :: rest).filter (fun x => decide (x ≠ k)) = rest := by
          rw [List.filter_cons]
          simp only [ne_eq, not_true_eq_false, decide_False, Bool.false_eq_true, if_false]
          exact List.filter_eq_self.2 hall
        rw [hf]
        simp
      · have hmem' : a ∈ rest := by
          rcases List.mem_cons.1 hmem with e | e
          · exact absurd e.symm hk
          · exact e
        have hpos : 0 < rest.length := List.length_pos_of_mem hmem'
        simp only [List.filter_cons, hk, ne_eq, not_false_eq_true, decide_True, if_true,
          List.length_cons, ih hnd.2 hmem']
        omega

/-- The loop over pairwise different locations of which one is skipped for permission and all
others are within the threshold and readable: it succeeds and adds exactly the others. -/
theorem catalogLoop_all_but_denied (P : GoError → Bool) (i : ContentsCataloger)
    (r : source.FileResolver) (denied : source.Location) (err : GoError)
    (hden : catalogLocation r denied = .error err) (hperm : P err = true)
    (locs : List source.Location) (acc : Results)
    (hnd : locs.Nodup) (hacc : acc.keys.Nodup) (hdisj : ∀ k ∈ locs, k ∉ acc.keys)
    (hsize : ∀ L ∈ locs, ∃ md, r.FileMetadataByLocation L = .ok md ∧
      ¬ (0 < i.skipFilesAboveSizeInBytes ∧ i.skipFilesAboveSizeInBytes < md.Size))
    (hread : ∀ L ∈ locs, L ≠ denied → ∃ s, catalogLocation r L = .ok s) :
    ∃ m, catalogLoop P i r locs acc = .ok m ∧
      m.length = acc.length + (locs.filter fun k => decide (k ≠ denied)).length ∧
      m.keys.Nodup ∧
      ∀ k, k ∈ m.keys ↔ k ∈ acc.keys ∨ (k ∈ locs ∧ k ≠ denied) := by
  induction locs generalizing acc with
  | nil => exact ⟨acc, rfl, by simp, hacc, by simp⟩
  | cons k rest ih =>
      rw [List.nodup_cons] at hnd
      obtain ⟨md, hmd, hsz⟩ := hsize k (List.mem_cons_self _ _)
      have hsize' : ∀ L ∈ rest, ∃ md, r.FileMetadataByLocation L = .ok md ∧
          ¬ (0 < i.skipFilesAboveSizeInBytes ∧ i.skipFilesAboveSizeInBytes < md.Size) :=
        fun L hL => hsize L (List.mem_cons_of_mem _ hL)
      have hread' : ∀ L ∈ rest, L ≠ denied → ∃ s, catalogLocation r L = .ok s :=
        fun L hL => hread L (List.mem_cons_of_mem _ hL)
      by_cases hk : k = denied
      · subst hk
        obtain ⟨m, hm, hlen, hmnd, hkeys⟩ := ih acc hnd.2 hacc
          (fun x hx => hdisj x (List.mem_cons_of_mem _ hx)) hsize' hread'
        refine ⟨m, ?_, ?_, hmnd, ?_⟩
        · rw [catalogLoop_permission_skip P i r rest acc hmd hsz hden hperm]
          exact hm
        · simpa using hlen
        · intro x
          rw [hkeys x]
          constructor
          · rintro (h | ⟨h₁, h₂⟩)
            · exact Or.inl h
            · exact Or.inr ⟨List.mem_cons_of_mem _ h₁, h₂⟩
          · rintro (h | ⟨h₁, h₂⟩)
            · exact Or.inl h
            · rcases List.mem_cons.1 h₁ with e | e
              · exact absurd e h₂
              · exact Or.inr ⟨e, h₂⟩
      · obtain ⟨s, hs⟩ := hread k (List.mem_cons_self _ _) hk
        have hkacc : k ∉ acc.keys := hdisj k (List.mem_cons_self _ _)
        obtain ⟨m, hm, hlen, hmnd, hkeys⟩ := ih (acc.set k s) hnd.2
          (Results.nodup_keys_set acc k s hacc)
          (by
            intro x hx hx'
            rcases (Results.mem_keys_set acc k x s).1 hx' with e | e
            · exact hnd.1 (e ▸ hx)
            · exact hdisj x (List.mem_cons_of_mem _ hx) e)
          hsize' hread'
        refine ⟨m, ?_, ?_, hmnd, ?_⟩
        · rw [catalogLoop_store P i r rest acc hmd hsz hs]
          exact hm
        · rw [hlen, Results.length_set_of_not_mem acc k s hkacc]
          simp only [List.filter_cons, hk, ne_eq, not_false_eq_true, decide_True, if_true,
            List.length_cons]
          omega
        · intro x
          rw [hkeys x, Results.mem_keys_set]
          constructor
          · rintro ((h | h) | ⟨h₁, h₂⟩)
            · exact Or.inr ⟨h ▸ List.mem_cons_self _ _, h ▸ hk⟩
            · exact Or.inl h
            · exact Or.inr ⟨List.mem_cons_of_mem _ h₁, h₂⟩
          · rintro (h | ⟨h₁, h₂⟩)
            · exact Or.inl (Or.inr h)
            · rcases List.mem_cons.1 h₁ with e | e
              · exact Or.inl (Or.inl e)
              · exact Or.inr ⟨e, h₂⟩

/-- C3: size threshold of `Catalog`. For a matched location whose metadata is `md`: under a
positive threshold smaller than `md.Size` the location has no effect at all (the run is the run
over the matched locations without it, so it causes no error) and is not a key of a returned
map; under threshold 0 a location whose content is opened and read is a key of the returned
map, bound to the string `catalogLocation` produced, whatever `md.Size` is. -/
theorem Catalog_size_threshold (P : GoError → Bool) (i : ContentsCataloger)
    (r : source.FileResolver) (locations : List source.Location) (L : source.Location)
    (md : source.FileMetadata)
    (hglob : r.FilesByGlob i.globs = .ok locations) (hmem : L ∈ locations)
    (hmd : r.FileMetadataByLocation L = .ok md) :
    (0 < i.skipFilesAboveSizeInBytes → i.skipFilesAboveSizeInBytes < md.Size →
      Catalog P i r = catalogLoop P i r (locations.filter fun k => decide (k ≠ L)) [] ∧
      ∀ results, Catalog P i r = .ok results → L ∉ results.keys) ∧
    (i.skipFilesAboveSizeInBytes = 0 → ∀ s, catalogLocation r L = .ok s →
      ∀ results, Catalog P i r = .ok results → results.get L = some s) := by
  have hcat : Catalog P i r = catalogLoop P i r locations [] := by
    simp [Catalog, hglob]
  refine ⟨fun hpos hlt => ?_, fun hzero s hs results hres => ?_⟩
  · have hfil := catalogLoop_filter_oversize P i r hmd ⟨hpos, hlt⟩ locations []
    refine ⟨hcat.trans hfil, fun results hres hkey => ?_⟩
    rw [hcat, hfil] at hres
    rcases catalogLoop_keys P i r _ [] results hres L hkey with h | h
    · simp [Results.keys] at h
    · simp at h
  · rw [hcat] at hres
    refine catalogLoop_get_of_mem P i r hs (fun md' _ hc => ?_) locations [] results hmem hres
    rw [hzero] at hc
    exact absurd hc.1 (lt_irrefl 0)

/-- C3, on a directory with `a.txt` (3 bytes) and `b.txt` (6 bytes): with threshold 4 the map
returned has no entry for `b.txt`, with threshold 0 it has one. -/
theorem Catalog_size_threshold_witness :
    exB ∉ Results.keys [(exA, "YWJj")] ∧
    Results.get [(exA, "YWJj"), (exB, "YWJjZGVm")] exB = some "YWJjZGVm" :=
  ⟨((Catalog_size_threshold internal.IsErrPathPermission (exCataloger 4)
      (exResolver [exFileA, exFileB]) [exA, exB] exB { Size := 6 } rfl (by decide) rfl).1
      (by decide) (by decide)).2 [(exA, "YWJj")] rfl,
   (Catalog_size_threshold internal.IsErrPathPermission (exCataloger 0)
      (exResolver [exFileA, exFileB]) [exA, exB] exB { Size := 6 } rfl (by decide) rfl).2
      rfl "YWJjZGVm" rfl [(exA, "YWJj"), (exB, "YWJjZGVm")] rfl⟩

/-- C4: permission denied is a per-file skip. When the glob query returns pairwise different
locations, all within the size threshold, of which one fails to open with an error the
classifier takes for a permission-denied path error and every other one opens and is read to
the end, `Catalog` returns no error and a map with one entry less than there are locations,
whose keys are the locations other than the denied one. -/
theorem Catalog_permission_denied_skip (P : GoError → Bool) (i : ContentsCataloger)
    (r : source.FileResolver) (locations : List source.Location) (denied : source.Location)
    (err : GoError)
    (hglob : r.FilesByGlob i.globs = .ok locations) (hnd : locations.Nodup)
    (hsize : ∀ L ∈ locations, ∃ md, r.FileMetadataByLocation L = .ok md ∧
      ¬ (0 < i.skipFilesAboveSizeInBytes ∧ i.skipFilesAboveSizeInBytes < md.Size))
    (hmem : denied ∈ locations)
    (hopen : r.FileContentsByLocation denied = .error err) (hperm : P err = true)
    (hread : ∀ L ∈ locations, L ≠ denied →
      ∃ rc, r.FileContentsByLocation L = .ok rc ∧ rc.err = none) :
    ∃ results, Catalog P i r = .ok results ∧
      results.length = locations.length - 1 ∧
      ∀ k, k ∈ results.keys ↔ (k ∈ locations ∧ k ≠ denied) := by
  have hden : catalogLocation r denied = .error err := by
    simp [catalogLocation, hopen]
  have hread' : ∀ L ∈ locations, L ≠ denied → ∃ s, catalogLocation r L = .ok s := by
    intro L hL hne
    obtain ⟨rc, hrc, hnone⟩ := hread L hL hne
    exact ⟨String.mk (rc.chunks.foldl encoder.Write NewEncoder).w, by
      simp [catalogLocation, hrc, ioCopy, hnone]⟩
  obtain ⟨m, hm, hlen, -, hkeys⟩ := catalogLoop_all_but_denied P i r denied err hden hperm
    locations [] hnd (by simp [Results.keys]) (by simp [Results.keys]) hsize hread'
  refine ⟨m, by simp [Catalog, hglob, hm], ?_, fun k => ?_⟩
  · rw [hlen, length_filter_ne_of_nodup_mem denied locations hnd hmem]
    simp
  · rw [hkeys k]
    simp [Results.keys]

/-- C4, on a directory with `a.txt`, `secret.txt` (permission denied on open) and `b.txt`: the
run succeeds with two entries. -/
theorem Catalog_permission_denied_skip_witness :
    ∃ results, Catalog internal.IsErrPathPermission (exCataloger 1024)
        (exResolver [exFileA, exFileDenied, exFileB]) = .ok results ∧
      results.length = 3 - 1 ∧
      ∀ k, k ∈ results.keys ↔ (k ∈ [exA, exSecret, exB] ∧ k ≠ exSecret) :=
  Catalog_permission_denied_skip internal.IsErrPathPermission (exCataloger 1024)
    (exResolver [exFileA, exFileDenied, exFileB]) [exA, exSecret, exB] exSecret
    (.ErrPath "/tmp/proj/secret.txt" .ErrPermission) rfl (by decide)
    (by
      intro L hL
      simp only [List.mem_cons, List.mem_singleton, List.not_mem_nil, or_false] at hL
      rcases hL with e | e | e <;> subst e
      · exact ⟨{ Size := 3 }, rfl, by decide⟩
      · exact ⟨{ Size := 3 }, rfl, by decide⟩
      · exact ⟨{ Size := 6 }, rfl, by decide⟩)
    (by decide) rfl rfl
    (by
      intro L hL hne
      simp only [List.mem_cons, List.mem_singleton, List.not_mem_nil, or_false] at hL
      rcases hL with e | e | e <;> subst e
      · exact ⟨_, rfl, rfl⟩
      · exact absurd rfl hne
      · exact ⟨_, rfl, rfl⟩)

theorem Encode_append (a b : List Nat) (h : a.length % 3 = 0) :
    Encode (a ++ b) = Encode a ++ Encode b := by
  induction a using Encode.induct with
  | case1 b0 b1 b2 rest ih =>
      have h' : rest.length % 3 = 0 := by
        simp only [List.length_cons] at h
        omega
      have e := ih h'
      show Encode (b0 :: b1 :: b2 :: (rest ++ b)) = _
      simp only [Encode, e, List.cons_append]
  | case2 b0 b1 => simp at h
  | case3 b0 => simp at h
  | case4 => simp [Encode]

theorem encoder.interior_eq (fuel : Nat) (p : List Nat) (w : List Char) (h : p.length ≤ fuel) :
    encoder.interior fuel p w =
      (p.drop (p.length - p.length % 3), w ++ Encode (p.take (p.length - p.length % 3))) := by
  induction fuel generalizing p w with
  | zero =>
      have : p = [] := List.length_eq_zero.1 (Nat.le_zero.1 h)
      subst this
      simp [encoder.interior, Encode]
  | succ fuel ih =>
      by_cases h3 : 3 ≤ p.length
      · simp only [encoder.interior, if_pos h3]
        generalize hnn : (if 768 > p.length then p.length - p.length % 3 else 768) = nn
        have hnn3 : nn % 3 = 0 := by
          rw [← hnn]
          split <;> omega
        have hnnle : nn ≤ p.length := by
          rw [← hnn]
          split <;> omega
        have hnnpos : 3 ≤ nn := by
          rw [← hnn]
          split <;> omega
        have hlen : (p.drop nn).length = p.length - nn := List.length_drop _ _
        rw [ih (p.drop nn) _ (by rw [hlen]; omega)]
        have hmod : (p.length - nn) % 3 = p.length % 3 := by omega
        rw [hlen, hmod, List.drop_drop]
        have hk : p.length - p.length % 3 = nn + (p.length - nn - p.length % 3) := by omega
        have htake : p.take (p.length - p.length % 3) =
            p.take nn ++ (p.drop nn).take (p.length - nn - p.length % 3) := by
          rw [hk, List.take_add]
        have hdrop : nn + (p.length - nn - p.length % 3) = p.length - p.length % 3 := by omega
        rw [htake, Encode_append _ _ (by rw [List.length_take]; omega), List.append_assoc]
        congr 2
      · have hlt : p.length < 3 := by omega
        have hz : p.length - p.length % 3 = 0 := by
          rw [Nat.mod_eq_of_lt hlt]; omega
        simp [encoder.interior, h3, hz, Encode]

theorem encoder.Write_spec (e : encoder) (p q t : List Nat) (hq : q.length % 3 = 0)
    (ht : t.length < 3) (hbuf : e.buf = t) (hw : e.w = Encode q) :
    ∃ q' t', q ++ t ++ p = q' ++ t' ∧ q'.length % 3 = 0 ∧ t'.length < 3 ∧
      (e.Write p).buf = t' ∧ (e.Write p).w = Encode q' := by
  by_cases hpos : 0 < e.buf.length
  · simp only [encoder.Write, if_pos hpos]
    rw [hbuf] at hpos ⊢
    by_cases hshort : (t ++ p.take (min p.length (3 - t.length))).length < 3
    · simp only [if_pos hshort]
      have hp : p.take (min p.length (3 - t.length)) = p := by
        apply List.take_of_length_le
        simp only [List.length_append, List.length_take] at hshort
        omega
      rw [hp] at hshort ⊢
      exact ⟨q, t ++ p, by simp, hq, hshort, rfl, hw⟩
    · simp only [if_neg hshort]
      generalize hi : min p.length (3 - t.length) = i at hshort ⊢
      have hblock : (t ++ p.take i).length = 3 := by
        simp only [List.length_append, List.length_take] at hshort ⊢
        omega
      rw [encoder.interior_eq _ _ _ (le_refl _)]
      generalize hm : (p.drop i).length - (p.drop i).length % 3 = m
      have hm3 : m % 3 = 0 := by omega
      have hmle : m ≤ (p.drop i).length := by omega
      refine ⟨q ++ (t ++ p.take i) ++ (p.drop i).take m, (p.drop i).drop m, ?_, ?_, ?_,
        rfl, ?_⟩
      · simp only [List.append_assoc, List.take_append_drop]
      · simp only [List.length_append, List.length_take] at hblock ⊢
        omega
      · rw [List.length_drop]
        omega
      · simp only []
        rw [hw, Encode_append (q ++ (t ++ p.take i)) ((p.drop i).take m)
          (by rw [List.length_append, hblock]; omega), Encode_append q (t ++ p.take i) hq]
  · simp only [encoder.Write, if_neg hpos]
    have ht0 : t = [] := by
      rw [hbuf] at hpos
      exact List.length_eq_zero.1 (by omega)
    subst ht0
    rw [encoder.interior_eq _ _ _ (le_refl _)]
    generalize hm : p.length - p.length % 3 = m
    have hm3 : m % 3 = 0 := by omega
    refine ⟨q ++ p.take m, p.drop m, ?_, ?_, ?_, rfl, ?_⟩
    · simp
    · rw [List.length_append, List.length_take]
      omega
    · rw [List.length_drop]
      omega
    · simp only []
      rw [hw, Encode_append _ _ hq]

theorem encoder.foldl_Write_spec (chunks : List (List Nat)) (e : encoder) (q t : List Nat)
    (hq : q.length % 3 = 0) (ht : t.length < 3) (hbuf : e.buf = t) (hw : e.w = Encode q) :
    ∃ q' t', q ++ t ++ chunks.flatten = q' ++ t' ∧ q'.length % 3 = 0 ∧ t'.length < 3 ∧
      (chunks.foldl encoder.Write e).buf = t' ∧ (chunks.foldl encoder.Write e).w = Encode q' := by
  induction chunks generalizing e q t with
  | nil => exact ⟨q, t, by simp, hq, ht, hbuf, hw⟩
  | cons p rest ih =>
      obtain ⟨q₁, t₁, hsplit, hq₁, ht₁, hbuf₁, hw₁⟩ :=
        encoder.Write_spec e p q t hq ht hbuf hw
      obtain ⟨q₂, t₂, hsplit₂, hq₂, ht₂, hbuf₂, hw₂⟩ :=
        ih (e.Write p) q₁ t₁ hq₁ ht₁ hbuf₁ hw₁
      refine ⟨q₂, t₂, ?_, hq₂, ht₂, hbuf₂, hw₂⟩
      rw [← hsplit₂, ← hsplit]
      simp

theorem take_of_split (bs q t : List Nat) (h : bs = q ++ t) (hq : q.length % 3 = 0)
    (ht : t.length < 3) : bs.take (bs.length - bs.length % 3) = q ∧ bs.length % 3 = t.length := by
  subst h
  have hmod : (q ++ t).length % 3 = t.length := by
    rw [List.length_append]
    omega
  refine ⟨?_, hmod⟩
  rw [hmod, List.length_append, Nat.add_sub_cancel]
  simp

/-- What `catalogLocation` returns for a content that opens and is read to the end: the base64
encoding of its longest prefix whose length is a multiple of three. The last `len % 3` bytes
stay in the encoder, which is never closed. -/
theorem catalogLocation_eq (r : source.FileResolver) (L : source.Location) (rc : ReadCloser)
    (hopen : r.FileContentsByLocation L = .ok rc) (herr : rc.err = none) :
    catalogLocation r L =
      .ok (String.mk (Encode (rc.bytes.take (rc.bytes.length - rc.bytes.length % 3)))) := by
  obtain ⟨q, t, hsplit, hq, ht, -, hw⟩ :=
    encoder.foldl_Write_spec rc.chunks NewEncoder [] [] rfl (by decide) rfl rfl
  simp only [List.append_nil, List.nil_append] at hsplit
  have htake := (take_of_split rc.bytes q t hsplit hq ht).1
  simp only [catalogLocation, hopen, ioCopy, herr]
  rw [hw, htake]

/-- Had the encoder been closed after the copy, the buffer would hold the base64 encoding of
the whole content. -/
theorem encoder.Close_after_copy (rc : ReadCloser) :
    ((ioCopy NewEncoder rc).1.Close).w = Encode rc.bytes := by
  obtain ⟨q, t, hsplit, hq, -, hbuf, hw⟩ :=
    encoder.foldl_Write_spec rc.chunks NewEncoder [] [] rfl (by decide) rfl rfl
  simp only [List.append_nil, List.nil_append] at hsplit
  simp only [ioCopy, encoder.Close, ReadCloser.bytes, hsplit]
  by_cases ht : 0 < t.length
  · rw [hbuf, if_pos ht]
    simp only [hw, hbuf]
    exact (Encode_append q t hq).symm
  · have ht0 : t = [] := List.length_eq_zero.1 (by omega)
    subst ht0
    rw [hbuf, if_neg ht, hw, List.append_nil]

theorem Encode_length (bs : List Nat) : (Encode bs).length = 4 * ((bs.length + 2) / 3) := by
  induction bs using Encode.induct with
  | case1 b0 b1 b2 rest ih =>
      simp only [Encode, List.length_cons, ih]
      omega
  | case2 b0 b1 => simp [Encode]
  | case3 b0 => simp [Encode]
  | case4 => simp [Encode]

/-- The string `catalogLocation` returns differs from the base64 encoding of the content as soon
as the length of the content is not a multiple of three, and equals it otherwise. -/
theorem catalogLocation_eq_base64_iff (r : source.FileResolver) (L : source.Location)
    (rc : ReadCloser) (hopen : r.FileContentsByLocation L = .ok rc) (herr : rc.err = none) :
    catalogLocation r L = .ok (String.mk (Encode rc.bytes)) ↔ rc.bytes.length % 3 = 0 := by
  rw [catalogLocation_eq r L rc hopen herr]
  constructor
  · intro h
    have h' := congrArg List.length (congrArg String.data (Except.ok.inj h))
    rw [Encode_length, Encode_length, List.length_take] at h'
    omega
  · intro h
    rw [h, Nat.sub_zero, List.take_length]
/-- C2 fails on the code. A directory holds `a.txt` with the single byte `a` and `b.txt` with
the four bytes `abcd`; the run succeeds and stores the empty string for `a.txt` and `YWJj` for
`b.txt`, while the padded base64 encodings of the two contents are `YQ==` and `YWJjZA==`: the
bytes after the last full group of three are never written out. -/
theorem Catalog_drops_trailing_bytes :
    Catalog internal.IsErrPathPermission (exCataloger 0)
        (exResolver [exFileOneByte, exFileFourBytes]) = .ok [(exA, ""), (exB, "YWJj")] ∧
    String.mk (Encode (ReadCloser.bytes { chunks := [[97]], err := none })) = "YQ==" ∧
    String.mk (Encode (ReadCloser.bytes { chunks := [[97, 98], [99, 100]], err := none })) =
      "YWJjZA==" := by
  decide

/-! ## The metadata codec -/

theorem keyMatches_type_type : keyMatches "type" "type" = true := by decide

theorem keyMatches_type_target : keyMatches "type" "target" = false := by decide

theorem keyMatches_target_target : keyMatches "target" "target" = true := by decide

/-- What `json.Unmarshal(b, &unpacker)` reads back from a marshalled envelope: its type string
and its target, raw. -/
theorem unmarshalUnpacker_Marshal {IM : Type} (J : EncodingJson IM) (s : JsonSource IM) :
    unmarshalUnpacker (s.Marshal J) =
      .ok { Typ := s.Typ, Target := some (s.Target.Marshal J) } := by
  simp [unmarshalUnpacker, JsonSource.Marshal, unpackMember, keyMatches_type_type,
    keyMatches_type_target, keyMatches_target_target]

/-- C8: envelope shape produced by `NewJsonSource`. For the image scheme the result has type
string `image` and a target carrying the given scope and the image descriptor of the metadata;
for the directory scheme it has type string `directory` and the path as target; no error is
returned in either case, and the type string is a function of the scheme alone. -/
theorem NewJsonSource_shape {IM : Type} (im : IM) (path : String) (scope : source.Scope) :
    NewJsonSource { Scheme := .ImageScheme, ImageMetadata := im, Path := path } scope =
      ({ Typ := "image",
         Target := .JsonImageMetadata { Scope := scope, ImageMetadata := im } }, none) ∧
    NewJsonSource { Scheme := .DirectoryScheme, ImageMetadata := im, Path := path } scope =
      ({ Typ := "directory", Target := .string path }, none) ∧
    ∀ (m : source.Metadata IM) (scope' : source.Scope),
      (NewJsonSource m scope').1.Typ =
        match m.Scheme with
        | .ImageScheme => "image"
        | .DirectoryScheme => "directory"
        | .other _ => "" := by
  refine ⟨rfl, rfl, fun m scope' => ?_⟩
  cases hs : m.Scheme <;> simp [NewJsonSource, hs]

/-- C1 fails on the code for every directory metadata: `NewJsonSource` writes the type string
`directory`, and `UnmarshalJSON`, whose switch knows `image` only, answers the marshalled
envelope with the unsupported-type error, whatever the JSON library does with image
descriptors. -/
theorem roundTrip_directory {IM : Type} (J : EncodingJson IM) (im : IM) (path : String)
    (scope : source.Scope) :
    roundTrip J { Scheme := .DirectoryScheme, ImageMetadata := im, Path := path } scope =
      .error (.Errorf "unsupported package metadata type: %+v" ["directory"]) := by
  simp [roundTrip, NewJsonSource, JsonSource.UnmarshalJSON, unmarshalUnpacker_Marshal]

/-- The image half of the round-trip law holds: when the JSON library reads back an image
descriptor from the object written for it next to the scope, an image metadata without a path
comes back unchanged. -/
theorem roundTrip_image {IM : Type} (J : EncodingJson IM) (m : source.Metadata IM)
    (scope : source.Scope) (hs : m.Scheme = .ImageScheme) (hp : m.Path = "")
    (hJ : J.unmarshalImageMetadata
      (.object (("Scope", J.marshalScope scope) :: J.marshalImageMetadata m.ImageMetadata)) =
        .ok m.ImageMetadata) :
    roundTrip J m scope = .ok (.ok m) := by
  obtain ⟨sch, im, path⟩ := m
  simp only at hs hp hJ
  subst hs hp
  simp [roundTrip, NewJsonSource, JsonSource.UnmarshalJSON, unmarshalUnpacker_Marshal,
    unmarshalPayload, Target.Marshal, hJ, JsonSource.ToSourceMetadata, source.Metadata.zero]

/-- C9: unsupported variants fail in both directions. For a metadata whose scheme is neither
image nor directory `NewJsonSource` returns an error next to the empty `JsonSource`; for an
envelope that decodes structurally and whose type string is not `image` (in particular one that
is neither `image` nor `directory`) `UnmarshalJSON` returns the unsupported-type error, having
set the type string of the receiver and nothing else. -/
theorem unsupported_variants_fail {IM : Type} (J : EncodingJson IM) (m : source.Metadata IM)
    (scope : source.Scope) (s : JsonSource IM) (b : Json) (unpacker : jsonSourceUnpacker)
    (hm₁ : m.Scheme ≠ .ImageScheme) (hm₂ : m.Scheme ≠ .DirectoryScheme)
    (hb : unmarshalUnpacker b = .ok unpacker) (ht₁ : unpacker.Typ ≠ "image") :
    NewJsonSource m scope =
      ({ Typ := "", Target := .nil },
        some (.Errorf "unsupported source: %T" ["source.Metadata"])) ∧
    JsonSource.UnmarshalJSON J s b =
      ({ s with Typ := unpacker.Typ },
        some (.Errorf "unsupported package metadata type: %+v" [unpacker.Typ])) := by
  constructor
  · cases hs : m.Scheme with
    | ImageScheme => exact absurd hs hm₁
    | DirectoryScheme => exact absurd hs hm₂
    | other name => simp [NewJsonSource, hs]
  · simp [JsonSource.UnmarshalJSON, hb, ht₁]

/-- C9, on the scheme `archive` and on an envelope of type `archive`. -/
theorem unsupported_variants_fail_witness :
    NewJsonSource exArchiveMetadata .SquashedScope =
      ({ Typ := "", Target := .nil },
        some (.Errorf "unsupported source: %T" ["source.Metadata"])) ∧
    JsonSource.UnmarshalJSON exJson { Typ := "", Target := .nil }
        (.object [("type", .string "archive"), ("target", .string "/tmp/x.tar")]) =
      ({ Typ := "archive", Target := .nil },
        some (.Errorf "unsupported package metadata type: %+v" ["archive"])) :=
  unsupported_variants_fail exJson exArchiveMetadata .SquashedScope { Typ := "", Target := .nil }
    (.object [("type", .string "archive"), ("target", .string "/tmp/x.tar")])
    { Typ := "archive", Target := some (.string "/tmp/x.tar") }
    (by decide) (by decide) rfl (by decide)

/-- C10, amended: `ToSourceMetadata` is safe on every `JsonSource` populated by a successful
`UnmarshalJSON` (its target is then a `source.ImageMetadata`, and the result is the image
metadata carrying it) and on every `JsonSource` returned by `NewJsonSource` for a directory
metadata `m`, where it returns the directory scheme with the path of `m`, which is `m` itself
when `m` carries no image descriptor. -/
theorem ToSourceMetadata_safe {IM : Type} (J : EncodingJson IM) :
    (∀ (s s' : JsonSource IM) (b : Json), JsonSource.UnmarshalJSON J s b = (s', none) →
      ∃ payload, s'.Target = .ImageMetadata payload ∧
        s'.ToSourceMetadata J =
          .ok { Scheme := .ImageScheme, ImageMetadata := payload, Path := "" }) ∧
    (∀ (m : source.Metadata IM) (scope : source.Scope), m.Scheme = .DirectoryScheme →
      (NewJsonSource m scope).2 = none ∧
      (NewJsonSource m scope).1.ToSourceMetadata J =
        .ok { Scheme := .DirectoryScheme, ImageMetadata := J.zeroImageMetadata,
              Path := m.Path } ∧
      (m.ImageMetadata = J.zeroImageMetadata →
        (NewJsonSource m scope).1.ToSourceMetadata J = .ok m)) := by
  constructor
  · intro s s' b h
    simp only [JsonSource.UnmarshalJSON] at h
    cases hu : unmarshalUnpacker b with
    | error err => simp [hu] at h
    | ok unpacker =>
        simp only [hu] at h
        by_cases ht : unpacker.Typ = "image"
        · simp only [ht, if_true] at h
          cases hp : unmarshalPayload J unpacker.Target with
          | error err => simp [hp] at h
          | ok payload =>
              simp only [hp, Prod.mk.injEq, and_true] at h
              subst h
              exact ⟨payload, rfl, by simp [JsonSource.ToSourceMetadata, source.Metadata.zero]⟩
        · simp [ht] at h
  · intro m scope hs
    obtain ⟨sch, im, path⟩ := m
    simp only at hs
    subst hs
    refine ⟨rfl, by simp [NewJsonSource, JsonSource.ToSourceMetadata, source.Metadata.zero], ?_⟩
    intro h
    simp only at h
    subst h
    simp [NewJsonSource, JsonSource.ToSourceMetadata, source.Metadata.zero]

/-- C10, amended, on the envelope decoded for `alpine:latest` and on the directory
`/tmp/proj`. -/
theorem ToSourceMetadata_safe_witness :
    JsonSource.ToSourceMetadata exJson
        { Typ := "image", Target := .ImageMetadata { UserInput := "alpine:latest" } } =
      .ok exAlpineMetadata ∧
    (NewJsonSource exDirMetadata .SquashedScope).1.ToSourceMetadata exJson = .ok exDirMetadata := by
  obtain ⟨payload, ht, hm⟩ := (ToSourceMetadata_safe exJson).1 { Typ := "", Target := .nil }
    { Typ := "image", Target := .ImageMetadata { UserInput := "alpine:latest" } }
    ((NewJsonSource exAlpineMetadata .SquashedScope).1.Marshal exJson) rfl
  cases ht
  exact ⟨hm, ((ToSourceMetadata_safe exJson).2 exDirMetadata .SquashedScope rfl).2.2 rfl⟩

/-- C10 as stated fails: for the image metadata of `alpine:latest`, `NewJsonSource` returns no
error and a `JsonSource` whose target is a `JsonImageMetadata`; the type assertion to
`source.ImageMetadata` in `ToSourceMetadata` fails on it. -/
theorem ToSourceMetadata_panics :
    (NewJsonSource exAlpineMetadata .SquashedScope).2 = none ∧
    (NewJsonSource exAlpineMetadata .SquashedScope).1.ToSourceMetadata exJson =
      .error ⟨"interface conversion: interface {} is not source.ImageMetadata"⟩ := by
  decide

/-! ## The upload guard and the worker -/

/-- C6: for a source whose scheme is not the image scheme `runPackageSbomUpload` returns the
unsupported-operation error, and the only effect it has performed is the log line: the
Dockerfile is not read, no client is created and `Import` is not called. -/
theorem runPackageSbomUpload_unsupported {IM SM Cat Dist : Type} (w : World IM SM Cat Dist)
    (appConfig : Application) (src : source.Source IM SM) (s : source.Metadata IM)
    (catalog : Cat) (d : Dist) (h : src.Metadata.Scheme ≠ .ImageScheme) :
    runPackageSbomUpload w appConfig src s catalog d =
      ([.Infof "uploading results to %s" [appConfig.Anchore.Host]],
        .ok (some (.Errorf "unable to upload results: only images are supported" []))) ∧
    ∀ e ∈ (runPackageSbomUpload w appConfig src s catalog d).1, e.isFileOrNetwork = false := by
  have hrun : runPackageSbomUpload w appConfig src s catalog d =
      ([.Infof "uploading results to %s" [appConfig.Anchore.Host]],
        .ok (some (.Errorf "unable to upload results: only images are supported" []))) := by
    simp [runPackageSbomUpload, h]
  refine ⟨hrun, fun e he => ?_⟩
  rw [hrun] at he
  simp only [List.mem_singleton] at he
  subst he
  rfl

/-- C6, on the directory source `/tmp/proj`. -/
theorem runPackageSbomUpload_unsupported_witness :
    exDirSource.Metadata.Scheme ≠ .ImageScheme ∧
    runPackageSbomUpload exWorld (exConfig true) exDirSource exDirMetadata () () =
      ([.Infof "uploading results to %s" ["https://anchore.example.com"]],
        .ok (some (.Errorf "unable to upload results: only images are supported" []))) :=
  ⟨by decide,
    (runPackageSbomUpload_unsupported exWorld (exConfig true) exDirSource exDirMetadata () ()
      (by decide)).1⟩

/-- The five ways the worker goes on once the source is open. -/
theorem workerAfterNew_cases {IM SM Cat Dist : Type} (w : World IM SM Cat Dist)
    (appConfig : Application) (src : source.Source IM SM) :
    (∃ err, workerAfterNew w appConfig src = [.catalogPackages, .send err] ∧
      ∃ e, w.CatalogPackages src appConfig.ScopeOpt = .error e) ∨
    (∃ catalog d, w.CatalogPackages src appConfig.ScopeOpt = .ok (catalog, d) ∧
      ((appConfig.Anchore.UploadEnabled = false ∧
          workerAfterNew w appConfig src = [.catalogPackages, .publish .PresenterReady]) ∨
        (appConfig.Anchore.UploadEnabled = true ∧
          ∃ effects, (runPackageSbomUpload w appConfig src src.Metadata catalog d).1 = effects ∧
            ((∃ p, (runPackageSbomUpload w appConfig src src.Metadata catalog d).2 = .error p ∧
                workerAfterNew w appConfig src = [.catalogPackages, .upload effects]) ∨
              (∃ err, (runPackageSbomUpload w appConfig src src.Metadata catalog d).2 =
                  .ok (some err) ∧
                workerAfterNew w appConfig src =
                  [.catalogPackages, .upload effects, .send err]) ∨
              ((runPackageSbomUpload w appConfig src src.Metadata catalog d).2 = .ok none ∧
                workerAfterNew w appConfig src =
                  [.catalogPackages, .upload effects, .publish .PresenterReady]))))) := by
  cases hc : w.CatalogPackages src appConfig.ScopeOpt with
  | error e =>
      exact Or.inl ⟨.ErrorfWrap "failed to catalog input: %+v" [] e,
        by simp [workerAfterNew, hc], e, rfl⟩
  | ok cd =>
      obtain ⟨catalog, d⟩ := cd
      refine Or.inr ⟨catalog, d, rfl, ?_⟩
      cases hu : appConfig.Anchore.UploadEnabled with
      | false => exact Or.inl ⟨rfl, by simp [workerAfterNew, hc, hu]⟩
      | true =>
          refine Or.inr ⟨rfl, _, rfl, ?_⟩
          rcases hr : runPackageSbomUpload w appConfig src src.Metadata catalog d with
            ⟨effects, (p | (_ | err))⟩
          · exact Or.inl ⟨p, rfl, by simp [workerAfterNew, hc, hu, hr]⟩
          · exact Or.inr (Or.inr ⟨rfl, by simp [workerAfterNew, hc, hu, hr]⟩)
          · exact Or.inr (Or.inl ⟨err, rfl, by simp [workerAfterNew, hc, hu, hr]⟩)

/-- C7: the trace of every run of `packagesExecWorker`. At most one value is sent on the error
channel; the trace ends with the close of the channel, which occurs nowhere before, so any
value sent precedes it; when opening the source, cataloging and, if enabled, the upload all
succeed, nothing is sent and `PresenterReady` is published exactly once; when one of them
fails, exactly one error is sent and `PresenterReady` is not published. -/
theorem packagesExecWorker_trace {IM SM Cat Dist : Type} (w : World IM SM Cat Dist)
    (appConfig : Application) (userInput : String) :
    sends (packagesExecWorker w appConfig userInput) ≤ 1 ∧
    (∃ pre, packagesExecWorker w appConfig userInput = pre ++ [.close] ∧ .close ∉ pre) ∧
    ((∃ src catalog d, w.New userInput = .ok src ∧
        w.CatalogPackages src appConfig.ScopeOpt = .ok (catalog, d) ∧
        (appConfig.Anchore.UploadEnabled = true →
          (runPackageSbomUpload w appConfig src src.Metadata catalog d).2 = .ok none)) →
      sends (packagesExecWorker w appConfig userInput) = 0 ∧
      presenterReadyCount (packagesExecWorker w appConfig userInput) = 1) ∧
    (((∃ err, w.New userInput = .error err) ∨
        ∃ src, w.New userInput = .ok src ∧
          ((∃ err, w.CatalogPackages src appConfig.ScopeOpt = .error err) ∨
            ∃ catalog d err, w.CatalogPackages src appConfig.ScopeOpt = .ok (catalog, d) ∧
              appConfig.Anchore.UploadEnabled = true ∧
              (runPackageSbomUpload w appConfig src src.Metadata catalog d).2 =
                .ok (some err))) →
      sends (packagesExecWorker w appConfig userInput) = 1 ∧
      presenterReadyCount (packagesExecWorker w appConfig userInput) = 0) := by
  cases hn : w.New userInput with
  | error e =>
      have ht : packagesExecWorker w appConfig userInput =
          [.checkForApplicationUpdate, .sourceNew userInput,
            .send (.ErrorfWrap "failed to determine image source: %+v" [] e), .close] := by
        simp [packagesExecWorker, hn]
      rw [ht]
      refine ⟨by simp [sends],
        ⟨[.checkForApplicationUpdate, .sourceNew userInput,
          .send (.ErrorfWrap "failed to determine image source: %+v" [] e)],
          by simp, by simp⟩, ?_, ?_⟩
      · rintro ⟨src, catalog, d, h, -⟩
        cases h
      · intro _
        simp [sends, presenterReadyCount]
  | ok src =>
      have ht : packagesExecWorker w appConfig userInput =
          .checkForApplicationUpdate :: .sourceNew userInput ::
            (workerAfterNew w appConfig src ++ [.cleanup, .close]) := by
        simp [packagesExecWorker, hn]
      rw [ht]
      rcases workerAfterNew_cases w appConfig src with
        ⟨err, hw, e, he⟩ | ⟨catalog, d, hc, ⟨hu, hw⟩ | ⟨hu, effects, -, h⟩⟩
      · rw [hw]
        refine ⟨by simp [sends],
          ⟨[.checkForApplicationUpdate, .sourceNew userInput, .catalogPackages, .send err,
            .cleanup],
            by simp, by simp⟩, ?_, ?_⟩
        · rintro ⟨src', catalog, d, h, hc, -⟩
          cases h
          rw [he] at hc
          cases hc
        · intro _
          simp [sends, presenterReadyCount]
      · rw [hw]
        refine ⟨by simp [sends],
          ⟨[.checkForApplicationUpdate, .sourceNew userInput, .catalogPackages,
            .publish .PresenterReady, .cleanup],
            by simp, by simp⟩, ?_, ?_⟩
        · intro _
          simp [sends, presenterReadyCount]
        · rintro (⟨err, h⟩ | ⟨src', h, ⟨err, he⟩ | ⟨catalog', d', err, -, hu', -⟩⟩)
          · cases h
          · cases h
            rw [hc] at he
            cases he
          · rw [hu] at hu'
            cases hu'
      · rcases h with ⟨p, hp, hw⟩ | ⟨err, herr, hw⟩ | ⟨hok, hw⟩
        · rw [hw]
          refine ⟨by simp [sends],
            ⟨[.checkForApplicationUpdate, .sourceNew userInput, .catalogPackages,
              .upload effects, .cleanup],
              by simp, by simp⟩, ?_, ?_⟩
          · rintro ⟨src', catalog', d', h, hc', hup⟩
            cases h
            rw [hc] at hc'
            cases hc'
            rw [hup hu] at hp
            cases hp
          · rintro (⟨err, h⟩ | ⟨src', h, ⟨err, he⟩ |
              ⟨catalog', d', err, hc', -, hup⟩⟩)
            · cases h
            · cases h
              rw [hc] at he
              cases he
            · cases h
              rw [hc] at hc'
              cases hc'
              rw [hup] at hp
              cases hp
        · rw [hw]
          refine ⟨by simp [sends],
            ⟨[.checkForApplicationUpdate, .sourceNew userInput, .catalogPackages,
              .upload effects, .send err, .cleanup],
              by simp, by simp⟩, ?_, ?_⟩
          · rintro ⟨src', catalog', d', h, hc', hup⟩
            cases h
            rw [hc] at hc'
            cases hc'
            rw [hup hu] at herr
            cases herr
          · intro _
            simp [sends, presenterReadyCount]
        · rw [hw]
          refine ⟨by simp [sends],
            ⟨[.checkForApplicationUpdate, .sourceNew userInput, .catalogPackages,
              .upload effects, .publish .PresenterReady, .cleanup],
              by simp, by simp⟩, ?_, ?_⟩
          · intro _
            simp [sends, presenterReadyCount]
          · rintro (⟨err, h⟩ | ⟨src', h, ⟨err, he⟩ |
              ⟨catalog', d', err, hc', -, hup⟩⟩)
            · cases h
            · cases h
              rw [hc] at he
              cases he
            · cases h
              rw [hc] at hc'
              cases hc'
              rw [hup] at hok
              cases hok

/-- C7, on an image with the upload enabled, where every step succeeds, and on a directory
with the upload enabled, where the upload is refused. -/
theorem packagesExecWorker_trace_witness :
    (sends (packagesExecWorker exWorld (exConfig true) "alpine:latest") = 0 ∧
      presenterReadyCount (packagesExecWorker exWorld (exConfig true) "alpine:latest") = 1) ∧
    (sends (packagesExecWorker exWorld (exConfig true) "dir:/tmp/proj") = 1 ∧
      presenterReadyCount (packagesExecWorker exWorld (exConfig true) "dir:/tmp/proj") = 0) :=
  ⟨(packagesExecWorker_trace exWorld (exConfig true) "alpine:latest").2.2.1
      ⟨exImageSource, (), (), rfl, rfl, fun _ => rfl⟩,
    (packagesExecWorker_trace exWorld (exConfig true) "dir:/tmp/proj").2.2.2
      (Or.inr ⟨exDirSource, rfl, Or.inr ⟨(), (),
        .Errorf "unable to upload results: only images are supported" [], rfl, rfl, rfl⟩⟩)⟩

end Syft
